import Mathlib

/-!
Verification of the jigsaw-puzzle engine in src/script.js.

The program keeps all puzzle state in the DOM: a piece is a div whose
current location is its parent element (the tray, or one board slot), a
slot is a div whose occupant is its child piece, and moving a piece is
appendChild, which first detaches the node from its previous parent and
then appends it as the last child of the new parent.  The shallow
embedding below mirrors that: a state records the ordered child list of
the tray and of every slot, and the appendChild primitives remove the
piece from every container before appending it.

Conventions of the embedding:
- piece ids and slot ids are the natural numbers 1 .. n*n, exactly the
  dataset.pieceId / dataset.slotId strings (decimal string equality on
  positive numerals coincides with equality on the numbers);
- slots are indexed 0-based in the slots list; the slot at index i has
  dataset.slotId i+1, matching rebuildBoard;
- the css classes that carry program logic (the filled marker on a slot)
  are modelled; purely decorative classes (drag-over, dragging), inline
  styles, and the write-only dataset.placedSlot attribute (never read by
  any logic) are omitted;
- the sound engine is presentation-only and is omitted;
- Math.random is modelled by an arbitrary function rand supplied to
  shufflePieces; the JS draw Math.floor(Math.random() * (i + 1)) always
  lies in [0, i], modelled as rand i % (i + 1);
- JS floating point arithmetic in computeBoardSize is modelled by exact
  real arithmetic, realised computably over the naturals (see
  roundedSide below and the lemma roundedSide_models_real).
-/

namespace Puzzle

/-! ## Constants from the top of script.js -/

def BOARD_DIMENSION : ℕ := 300

def MIN_BOARD_SIZE : ℕ := 2

def MAX_BOARD_SIZE : ℕ := 7

def TARGET_PIXELS_PER_PIECE : ℕ := 35000

/-! ## Grid sizing: computeBoardSize and clamp

JS source:
  pixelCount = naturalWidth * naturalHeight
  base    = Math.sqrt(pixelCount / TARGET_PIXELS_PER_PIECE)
  boosted = base * 1.15
  approximatePiecesPerSide = Math.round(boosted)
  return clamp(approximatePiecesPerSide || MIN_BOARD_SIZE, MIN, MAX)

Under exact real arithmetic, with area a,
  boosted = sqrt(a / 35000) * (23/20) = sqrt(529 * a / 14000000)
and for x >= 0, Math.round(x) = floor(x + 1/2).  Writing N = 529 * a and
D = 14000000,
  floor(sqrt(N / D) + 1/2) = floor((2 * sqrt(N * D) + D) / (2 * D))
                           = (Nat.sqrt (4 * N * D) + D) / (2 * D)
using floor(2 * sqrt m) = Nat.sqrt (4 * m) and integer division.  The
lemma roundedSide_models_real below proves this equals the real-valued
expression of the source. -/

/-- Math.round(Math.sqrt(area / 35000) * 1.15) under exact real
arithmetic, computed with natural-number arithmetic. -/
def roundedSide (area : ℕ) : ℕ :=
  (Nat.sqrt (4 * (529 * area) * 14000000) + 14000000) / 28000000

/-- The clamp helper at the bottom of script.js:
Math.min(Math.max(value, min), max). -/
def clamp (value lo hi : ℕ) : ℕ :=
  min (max value lo) hi

/-- computeBoardSize as a function of the pixel area: the rounded boosted
side, with the JS falsy-0 fallback (candidate || MIN_BOARD_SIZE), clamped
to [MIN_BOARD_SIZE, MAX_BOARD_SIZE]. -/
def boardSizeOfArea (area : ℕ) : ℕ :=
  clamp (if roundedSide area = 0 then MIN_BOARD_SIZE else roundedSide area)
    MIN_BOARD_SIZE MAX_BOARD_SIZE

/-- computeBoardSize(image): pixelCount = naturalWidth * naturalHeight,
then the rounded, boosted, clamped side length. -/
def computeBoardSize (naturalWidth naturalHeight : ℕ) : ℕ :=
  boardSizeOfArea (naturalWidth * naturalHeight)

/-! ## Slicing and board construction

sliceScene cuts the square scene canvas into boardSize * boardSize
sub-rectangles in row-major order (outer loop row, inner loop col),
each of extent pieceSize * pieceSize taken at
(col * pieceSize, row * pieceSize).  pieceSize = 300 / boardSize may be
fractional, so coordinates are rationals.  A texture is modelled by its
source rectangle in the scene. -/

/-- Source rectangle of one sliced texture inside the scene canvas. -/
structure SliceRect where
  x : ℚ
  y : ℚ
  w : ℚ
  h : ℚ
deriving DecidableEq

/-- sliceScene(sceneCanvas, boardSize, pieceSize): the row-major list of
slice rectangles pushed by the two nested loops. -/
def sliceScene (boardSize : ℕ) (pieceSize : ℚ) : List SliceRect :=
  (List.range boardSize).flatMap fun (row : ℕ) =>
    (List.range boardSize).map fun (col : ℕ) =>
      ⟨(col : ℚ) * pieceSize, (row : ℚ) * pieceSize, pieceSize, pieceSize⟩

/-- rebuildBoard(board, boardSize): creates boardSize * boardSize slot
divs with dataset.slotId = i + 1 in creation order; modelled by the list
of slot ids. -/
def rebuildBoard (boardSize : ℕ) : List ℕ :=
  (List.range (boardSize * boardSize)).map (· + 1)

/-- rebuildTray(tray, totalPieces): creates totalPieces piece divs with
dataset.pieceId = i + 1 in creation order; modelled by the list of piece
ids. -/
def rebuildTray (totalPieces : ℕ) : List ℕ :=
  (List.range totalPieces).map (· + 1)

/-- One hydrated piece: its dataset.pieceId, the dataset.correctSlot
value assigned by hydratePieces, and textures[index] (none when the
textures list is too short, i.e. the JS undefined). -/
structure PieceInfo where
  pieceId : ℕ
  correctSlot : ℕ
  texture : Option SliceRect
deriving DecidableEq

/-- hydratePieces(textures): walks puzzleState.pieces in creation order
and assigns piece index i the texture textures[i] and
dataset.correctSlot = i + 1. -/
def hydratePieces (totalPieces : ℕ) (textures : List SliceRect) : List PieceInfo :=
  (List.range totalPieces).map fun i => ⟨i + 1, i + 1, textures[i]?⟩

/-- dataset.correctSlot of the piece with a given dataset.pieceId: the
piece created at index i by rebuildTray has pieceId i + 1 and is assigned
correctSlot i + 1 by hydratePieces, so correctSlot coincides with the
piece id (proved in general in the claim-C4 theorem). -/
def correctSlot (pieceId : ℕ) : ℕ := pieceId

/-! ## The DOM-backed puzzle state

A state records, for every container, its ordered list of child pieces:
the tray child list and, for each board slot (0-based index i, slot id
i + 1), that slot child list.  It also records the filled css marker of
each slot, the puzzleState.pieces array (creation order, never
reordered), and the status line text. -/

structure PState where
  /-- puzzleState.pieces: the piece ids in creation order.  The array is
  fixed at initialisation; find-by-id searches it. -/
  pieces : List ℕ
  /-- Ordered child list of the tray element. -/
  tray : List ℕ
  /-- Ordered child list of each slot element, indexed by slot position;
  the slot at index i has dataset.slotId = i + 1. -/
  slots : List (List ℕ)
  /-- Whether each slot currently has the filled css class. -/
  filled : List Bool
  /-- textContent of the status node. -/
  status : String
deriving DecidableEq

namespace PState

/-- slot.querySelector applied to slot index i: the first child piece. -/
def occupant (st : PState) (i : ℕ) : Option ℕ :=
  (st.slots.getD i []).head?

/-- Number of occurrences of piece p across a list of slot child lists. -/
def countSlots (p : ℕ) : List (List ℕ) → ℕ
  | [] => 0
  | l :: ls => l.count p + countSlots p ls

/-- Index of the first slot whose child list contains p: the DOM parent
of p when p sits in a slot (the parent is unique in the DOM; in reachable
states every piece occurs at most once, so first means only). -/
def findSlotIdx (p : ℕ) : List (List ℕ) → Option ℕ
  | [] => none
  | l :: ls => if p ∈ l then some 0 else (findSlotIdx p ls).map (· + 1)

/-- Total number of occurrences of p across every container. -/
def occCount (p : ℕ) (st : PState) : ℕ :=
  st.tray.count p + countSlots p st.slots

/-- Detach a piece from every container: the removal half of
appendChild. -/
def detach (p : ℕ) (st : PState) : PState :=
  { st with
    tray := st.tray.filter (fun q => q ≠ p)
    slots := st.slots.map fun l => l.filter (fun q => q ≠ p) }

/-- tray.appendChild(piece): detach, then append as last tray child. -/
def appendToTray (p : ℕ) (st : PState) : PState :=
  let st1 := detach p st
  { st1 with tray := st1.tray ++ [p] }

/-- slot.appendChild(piece) on slot index s: detach, then append as last
child of that slot. -/
def appendToSlot (s p : ℕ) (st : PState) : PState :=
  let st1 := detach p st
  { st1 with slots := st1.slots.set s (st1.slots.getD s [] ++ [p]) }

/-- setStatus(message). -/
def setStatus (m : String) (st : PState) : PState :=
  { st with status := m }

/-- movePieceToTray(piece): if the parent element of the piece is a slot,
clear that slot filled marker (the drag-over class is decorative and not
modelled); then tray.appendChild(piece). -/
def movePieceToTray (p : ℕ) (st : PState) : PState :=
  let st1 :=
    match findSlotIdx p st.slots with
    | some i => { st with filled := st.filled.set i false }
    | none => st
  appendToTray p st1

/-- placePieceInSlot(piece, slot) on slot index s: if the previous parent
of the piece is a slot, clear its filled marker; then
slot.appendChild(piece), set the filled marker of s, and (unmodelled)
restyle the piece; dataset.placedSlot is write-only and omitted. -/
def placePieceInSlot (p s : ℕ) (st : PState) : PState :=
  let st1 :=
    match findSlotIdx p st.slots with
    | some i => { st with filled := st.filled.set i false }
    | none => st
  let st2 := appendToSlot s p st1
  { st2 with filled := st2.filled.set s true }

/-! ## Completion evaluation -/

def completeMessage : String := "Puzzle completed! Great work!"

def closeMessage : String := "So close! Some pieces need to be swapped."

/-- allFilled of checkCompletion: every slot has a child piece. -/
def allFilledB (st : PState) : Bool :=
  st.slots.all fun l => !l.isEmpty

/-- allCorrect of checkCompletion: every slot has a child piece whose
dataset.correctSlot equals the slot dataset.slotId (index + 1). -/
def allCorrectB (st : PState) : Bool :=
  (List.range st.slots.length).all fun i =>
    match (st.slots.getD i []).head? with
    | some p => correctSlot p == i + 1
    | none => false

/-- The status message written by checkCompletion: the completion message
when allCorrect and allFilled, the so-close message when only allFilled,
and nothing otherwise. -/
def checkCompletionMsg (st : PState) : Option String :=
  if allCorrectB st && allFilledB st then some completeMessage
  else if allFilledB st then some closeMessage
  else none

/-- checkCompletion(): writes the message, if any, to the status node
(the completion sound is presentation-only and omitted). -/
def checkCompletion (st : PState) : PState :=
  match checkCompletionMsg st with
  | some m => setStatus m st
  | none => st

/-! ## Drop handlers -/

/-- handleDropOnSlot on slot index s with the dragged piece id: look the
piece up in puzzleState.pieces; when absent, return with no effect; when
the slot already holds a different piece, evict it to the tray; then
place the piece, set the status line and re-evaluate completion.  The
outer bound check is a modelling artifact: drop events only fire on the
slots the listeners were installed on, so s always indexes a real
slot. -/
def handleDropOnSlot (pid s : ℕ) (st : PState) : PState :=
  if s < st.slots.length then
    if pid ∈ st.pieces then
      let st1 :=
        match (st.slots.getD s []).head? with
        | some q => if q ≠ pid then movePieceToTray q st else st
        | none => st
      let st2 := placePieceInSlot pid s st1
      let st3 := setStatus "Piece placed on the board." st2
      checkCompletion st3
    else st
  else st

/-- handleDropOnTray with the dragged piece id: look the piece up; when
absent, return with no effect; otherwise move it to the tray, set the
status line and re-evaluate completion. -/
def handleDropOnTray (pid : ℕ) (st : PState) : PState :=
  if pid ∈ st.pieces then
    let st1 := movePieceToTray pid st
    let st2 := setStatus "Piece returned to the tray." st1
    checkCompletion st2
  else st

/-! ## Shuffle -/

/-- Swap two positions of a list; used by the Fisher-Yates loop.  When an
index is out of range the list is unchanged (never happens in the loop
below). -/
def listSwap (l : List ℕ) (i j : ℕ) : List ℕ :=
  match l[i]?, l[j]? with
  | some a, some b => (l.set i b).set j a
  | _, _ => l

/-- The Fisher-Yates downward loop: for i from l.length - 1 down to 1,
draw j = Math.floor(Math.random() * (i + 1)), an arbitrary value in
[0, i] modelled as rand i % (i + 1), and swap positions i and j.  The
first argument is the current loop counter i. -/
def fyLoop (rand : ℕ → ℕ) : ℕ → List ℕ → List ℕ
  | 0, l => l
  | i + 1, l => fyLoop rand i (listSwap l (i + 1) (rand (i + 1) % (i + 2)))

/-- The shuffled copy [...puzzleState.pieces] after the Fisher-Yates
loop. -/
def fisherYates (rand : ℕ → ℕ) (l : List ℕ) : List ℕ :=
  fyLoop rand (l.length - 1) l

/-- Body of the first forEach of shufflePieces, for slot index i: move
the slot occupant (first child piece, when present) to the tray, and
clear the filled marker. -/
def evictOne (acc : PState) (i : ℕ) : PState :=
  let acc1 :=
    match (acc.slots.getD i []).head? with
    | some occ => movePieceToTray occ acc
    | none => acc
  { acc1 with filled := acc1.filled.set i false }

/-- The first forEach of shufflePieces: evictOne over every slot index in
order (puzzleState.slots is the fixed array built by rebuildBoard). -/
def evictSlots (st : PState) : PState :=
  (List.range st.slots.length).foldl evictOne st

/-- shufflePieces(): evict every slot occupant to the tray, shuffle a
copy of the pieces array, re-append every piece to the tray in shuffled
order, and set the status line. -/
def shufflePieces (rand : ℕ → ℕ) (st : PState) : PState :=
  let st1 := evictSlots st
  let shuffled := fisherYates rand st1.pieces
  let st2 := shuffled.foldl (fun acc p => appendToTray p acc) st1
  setStatus "Pieces shuffled. Start solving!" st2

/-! ## Initial state and operation sequences -/

/-- The state right after initPuzzle built the board and tray for side
length n: pieces 1 .. n*n sit in the tray in creation order, every slot
is empty and unmarked.  initPuzzle then runs shufflePieces once; that is
an ordinary operation and can be the first element of an operation
sequence. -/
def initState (n : ℕ) : PState :=
  { pieces := rebuildTray (n * n)
    tray := rebuildTray (n * n)
    slots := List.replicate (n * n) []
    filled := List.replicate (n * n) false
    status := "Loading image.png..." }

/-- One user-triggered model operation. -/
inductive Op where
  | dropOnSlot (pid s : ℕ)
  | dropOnTray (pid : ℕ)
  | shuffle (rand : ℕ → ℕ)

/-- Apply one operation. -/
def applyOp (st : PState) : Op → PState
  | .dropOnSlot pid s => handleDropOnSlot pid s st
  | .dropOnTray pid => handleDropOnTray pid st
  | .shuffle rand => shufflePieces rand st

/-- Run a sequence of operations. -/
def run (ops : List Op) (st : PState) : PState :=
  ops.foldl applyOp st

/-! ## The bijection invariant -/

/-- Well-formedness of a state: the pieces array has no duplicate ids;
every piece occurs in exactly one container position; containers hold
only pieces of this puzzle instance; and no slot holds more than one
piece. -/
def Inv (st : PState) : Prop :=
  st.pieces.Nodup ∧
  (∀ p ∈ st.pieces, occCount p st = 1) ∧
  (∀ p ∈ st.tray, p ∈ st.pieces) ∧
  (∀ l ∈ st.slots, (∀ p ∈ l, p ∈ st.pieces) ∧ l.length ≤ 1)

instance (st : PState) : Decidable (Inv st) := by
  unfold Inv; infer_instance

/-! ## List helper lemmas -/

theorem getD_set_self {α : Type} (l : List α) (i : ℕ) (x d : α)
    (h : i < l.length) : (l.set i x).getD i d = x := by
  simp [List.getD_eq_getElem?_getD, List.getElem?_set_self h]

theorem getD_set_ne {α : Type} (l : List α) (i j : ℕ) (x d : α)
    (h : i ≠ j) : (l.set i x).getD j d = l.getD j d := by
  simp [List.getD_eq_getElem?_getD, List.getElem?_set_ne h]

theorem count_filter_self (p : ℕ) (l : List ℕ) :
    (l.filter fun q => q ≠ p).count p = 0 := by
  refine List.count_eq_zero.mpr fun hmem => ?_
  rcases List.mem_filter.mp hmem with ⟨-, hdec⟩
  simp at hdec

theorem count_filter_other {a p : ℕ} (h : a ≠ p) (l : List ℕ) :
    (l.filter fun q => q ≠ p).count a = l.count a :=
  List.count_filter (by simpa using h)

theorem getD_mem {α : Type} {l : List α} {i : ℕ} (d : α)
    (h : i < l.length) : l.getD i d ∈ l := by
  rw [List.getD_eq_getElem?_getD, List.getElem?_eq_getElem h]
  exact List.getElem_mem h

/-! ## countSlots and findSlotIdx lemmas -/

theorem countSlots_map_filter (a p : ℕ) (ls : List (List ℕ)) :
    countSlots a (ls.map fun l => l.filter fun q => q ≠ p) =
      if a = p then 0 else countSlots a ls := by
  induction ls with
  | nil => simp [countSlots]
  | cons l t ih =>
    simp only [List.map_cons, countSlots, ih]
    by_cases hap : a = p
    · subst hap
      rw [if_pos rfl, if_pos rfl, count_filter_self]
    · rw [if_neg hap, if_neg hap, count_filter_other hap]

theorem countSlots_set (a : ℕ) (ls : List (List ℕ)) (i : ℕ) (x : List ℕ)
    (h : i < ls.length) :
    countSlots a (ls.set i x) + (ls.getD i []).count a =
      countSlots a ls + x.count a := by
  induction ls generalizing i with
  | nil => simp at h
  | cons l t ih =>
    cases i with
    | zero => simp [countSlots]; omega
    | succ j =>
      have hj : j < t.length := by simpa using h
      have := ih j hj
      simp only [List.set_cons_succ, countSlots, List.getD_cons_succ]
      omega

theorem countSlots_eq_zero_iff (a : ℕ) (ls : List (List ℕ)) :
    countSlots a ls = 0 ↔ ∀ l ∈ ls, a ∉ l := by
  induction ls with
  | nil => simp [countSlots]
  | cons l t ih =>
    simp only [countSlots, Nat.add_eq_zero, ih, List.mem_cons]
    constructor
    · rintro ⟨h0, ht⟩ x (rfl | hx)
      · exact List.count_eq_zero.mp h0
      · exact ht x hx
    · intro h
      exact ⟨List.count_eq_zero.mpr (h l (Or.inl rfl)),
        fun x hx => h x (Or.inr hx)⟩

theorem count_getD_le_countSlots (a : ℕ) (ls : List (List ℕ)) (i : ℕ)
    (h : i < ls.length) : (ls.getD i []).count a ≤ countSlots a ls := by
  induction ls generalizing i with
  | nil => simp at h
  | cons l t ih =>
    cases i with
    | zero => simp only [List.getD_cons_zero, countSlots]; omega
    | succ j =>
      have hj : j < t.length := by simpa using h
      have := ih j hj
      simp only [countSlots, List.getD_cons_succ]
      omega

theorem findSlotIdx_eq_none_iff (p : ℕ) (ls : List (List ℕ)) :
    findSlotIdx p ls = none ↔ ∀ l ∈ ls, p ∉ l := by
  induction ls with
  | nil => simp [findSlotIdx]
  | cons l t ih =>
    by_cases hl : p ∈ l
    · simp [findSlotIdx, hl]
    · simp [findSlotIdx, hl, Option.map_eq_none, ih]

theorem findSlotIdx_unique (p : ℕ) (ls : List (List ℕ)) (i : ℕ)
    (hi : i < ls.length) (hmem : p ∈ ls.getD i [])
    (hcount : countSlots p ls ≤ 1) :
    findSlotIdx p ls = some i ∧
      ∀ j, j < ls.length → j ≠ i → p ∉ ls.getD j [] := by
  induction ls generalizing i with
  | nil => simp at hi
  | cons l t ih =>
    cases i with
    | zero =>
      simp only [List.getD_cons_zero] at hmem
      have hcl : 1 ≤ l.count p := List.count_pos_iff.mpr hmem
      have htz : countSlots p t = 0 := by
        simp only [countSlots] at hcount; omega
      refine ⟨by simp [findSlotIdx, hmem], ?_⟩
      rintro (_ | j) hj hne
      · exact absurd rfl hne
      · have hjt : j < t.length := by simpa using hj
        simp only [List.getD_cons_succ]
        intro hmem2
        have := List.count_pos_iff.mpr hmem2
        have := count_getD_le_countSlots p t j hjt
        omega
    | succ i2 =>
      have hi2 : i2 < t.length := by simpa using hi
      simp only [List.getD_cons_succ] at hmem
      have hct : 1 ≤ countSlots p t := by
        have h1 := List.count_pos_iff.mpr hmem
        have h2 := count_getD_le_countSlots p t i2 hi2
        omega
      have hlz : l.count p = 0 := by
        simp only [countSlots] at hcount; omega
      have hpl : p ∉ l := List.count_eq_zero.mp hlz
      have hcount2 : countSlots p t ≤ 1 := by
        simp only [countSlots] at hcount; omega
      obtain ⟨hfind, hothers⟩ := ih i2 hi2 hmem hcount2
      refine ⟨by simp [findSlotIdx, hpl, hfind], ?_⟩
      rintro (_ | j) hj hne
      · simpa using hpl
      · have hjt : j < t.length := by simpa using hj
        simp only [List.getD_cons_succ]
        exact hothers j hjt (by omega)

theorem findSlotIdx_isSome_of_mem (p : ℕ) (ls : List (List ℕ)) (i : ℕ)
    (hi : i < ls.length) (hmem : p ∈ ls.getD i []) :
    (findSlotIdx p ls).isSome := by
  rcases h : findSlotIdx p ls with - | j
  · exact absurd hmem ((findSlotIdx_eq_none_iff p ls).mp h _ (getD_mem [] hi))
  · rfl

theorem countSlots_replicate_nil (a m : ℕ) :
    countSlots a (List.replicate m []) = 0 :=
  (countSlots_eq_zero_iff a _).mpr fun l hl => by
    rw [List.eq_of_mem_replicate hl]; simp

/-! ## Field characterizations of the state primitives -/

@[simp] theorem detach_pieces (p : ℕ) (st : PState) :
    (detach p st).pieces = st.pieces := rfl

@[simp] theorem detach_tray (p : ℕ) (st : PState) :
    (detach p st).tray = st.tray.filter fun q => q ≠ p := rfl

@[simp] theorem detach_slots (p : ℕ) (st : PState) :
    (detach p st).slots = st.slots.map fun l => l.filter fun q => q ≠ p := rfl

@[simp] theorem appendToTray_pieces (p : ℕ) (st : PState) :
    (appendToTray p st).pieces = st.pieces := rfl

@[simp] theorem appendToTray_tray (p : ℕ) (st : PState) :
    (appendToTray p st).tray = (st.tray.filter fun q => q ≠ p) ++ [p] := rfl

@[simp] theorem appendToTray_slots (p : ℕ) (st : PState) :
    (appendToTray p st).slots =
      st.slots.map fun l => l.filter fun q => q ≠ p := rfl

@[simp] theorem appendToTray_filled (p : ℕ) (st : PState) :
    (appendToTray p st).filled = st.filled := rfl

@[simp] theorem appendToTray_status (p : ℕ) (st : PState) :
    (appendToTray p st).status = st.status := rfl

theorem movePieceToTray_tray (p : ℕ) (st : PState) :
    (movePieceToTray p st).tray =
      (st.tray.filter fun q => q ≠ p) ++ [p] := by
  unfold movePieceToTray
  cases findSlotIdx p st.slots <;> rfl

theorem movePieceToTray_slots (p : ℕ) (st : PState) :
    (movePieceToTray p st).slots =
      st.slots.map fun l => l.filter fun q => q ≠ p := by
  unfold movePieceToTray
  cases findSlotIdx p st.slots <;> rfl

@[simp] theorem movePieceToTray_pieces (p : ℕ) (st : PState) :
    (movePieceToTray p st).pieces = st.pieces := by
  unfold movePieceToTray
  cases findSlotIdx p st.slots <;> rfl

@[simp] theorem movePieceToTray_status (p : ℕ) (st : PState) :
    (movePieceToTray p st).status = st.status := by
  unfold movePieceToTray
  cases findSlotIdx p st.slots <;> rfl

theorem movePieceToTray_filled_none {p : ℕ} {st : PState}
    (h : findSlotIdx p st.slots = none) :
    (movePieceToTray p st).filled = st.filled := by
  unfold movePieceToTray
  rw [h]
  rfl

theorem movePieceToTray_filled_some {p : ℕ} {st : PState} {i : ℕ}
    (h : findSlotIdx p st.slots = some i) :
    (movePieceToTray p st).filled = st.filled.set i false := by
  unfold movePieceToTray
  rw [h]
  rfl

@[simp] theorem appendToSlot_pieces (s p : ℕ) (st : PState) :
    (appendToSlot s p st).pieces = st.pieces := rfl

@[simp] theorem appendToSlot_tray (s p : ℕ) (st : PState) :
    (appendToSlot s p st).tray = st.tray.filter fun q => q ≠ p := rfl

@[simp] theorem appendToSlot_filled (s p : ℕ) (st : PState) :
    (appendToSlot s p st).filled = st.filled := rfl

@[simp] theorem appendToSlot_status (s p : ℕ) (st : PState) :
    (appendToSlot s p st).status = st.status := rfl

theorem appendToSlot_slots (s p : ℕ) (st : PState) :
    (appendToSlot s p st).slots =
      (st.slots.map fun l => l.filter fun q => q ≠ p).set s
        (((st.slots.map fun l => l.filter fun q => q ≠ p).getD s []) ++ [p]) :=
  rfl

theorem placePieceInSlot_tray (p s : ℕ) (st : PState) :
    (placePieceInSlot p s st).tray = st.tray.filter fun q => q ≠ p := by
  unfold placePieceInSlot
  cases findSlotIdx p st.slots <;> rfl

theorem placePieceInSlot_slots (p s : ℕ) (st : PState) :
    (placePieceInSlot p s st).slots =
      (st.slots.map fun l => l.filter fun q => q ≠ p).set s
        (((st.slots.map fun l => l.filter fun q => q ≠ p).getD s []) ++ [p]) := by
  unfold placePieceInSlot
  cases findSlotIdx p st.slots <;> rfl

@[simp] theorem placePieceInSlot_pieces (p s : ℕ) (st : PState) :
    (placePieceInSlot p s st).pieces = st.pieces := by
  unfold placePieceInSlot
  cases findSlotIdx p st.slots <;> rfl

@[simp] theorem placePieceInSlot_status (p s : ℕ) (st : PState) :
    (placePieceInSlot p s st).status = st.status := by
  unfold placePieceInSlot
  cases findSlotIdx p st.slots <;> rfl

theorem placePieceInSlot_filled_none {p : ℕ} (s : ℕ) {st : PState}
    (h : findSlotIdx p st.slots = none) :
    (placePieceInSlot p s st).filled = st.filled.set s true := by
  unfold placePieceInSlot
  rw [h]
  rfl

theorem placePieceInSlot_filled_some {p : ℕ} (s : ℕ) {st : PState} {i : ℕ}
    (h : findSlotIdx p st.slots = some i) :
    (placePieceInSlot p s st).filled = (st.filled.set i false).set s true := by
  unfold placePieceInSlot
  rw [h]
  rfl

/-! ## occCount through the primitives -/

@[simp] theorem occCount_set_filled (a : ℕ) (st : PState) (f : List Bool) :
    occCount a { st with filled := f } = occCount a st := rfl

@[simp] theorem occCount_set_status (a : ℕ) (st : PState) (m : String) :
    occCount a { st with status := m } = occCount a st := rfl

theorem occCount_detach (a p : ℕ) (st : PState) :
    occCount a (detach p st) = if a = p then 0 else occCount a st := by
  unfold occCount
  simp only [detach_tray, detach_slots, countSlots_map_filter]
  by_cases hap : a = p
  · subst hap
    rw [if_pos rfl, if_pos rfl, count_filter_self]
  · rw [if_neg hap, if_neg hap, count_filter_other hap]

theorem occCount_appendToTray (a p : ℕ) (st : PState) :
    occCount a (appendToTray p st) = if a = p then 1 else occCount a st := by
  unfold occCount
  simp only [appendToTray_tray, appendToTray_slots, countSlots_map_filter,
    List.count_append]
  by_cases hap : a = p
  · subst hap
    rw [if_pos rfl, if_pos rfl, count_filter_self]
    simp
  · rw [if_neg hap, if_neg hap, count_filter_other hap]
    have : List.count a [p] = 0 := by
      simp [List.count_singleton, hap]
    omega

theorem occCount_appendToSlot (a p s : ℕ) (st : PState)
    (h : s < st.slots.length) :
    occCount a (appendToSlot s p st) = if a = p then 1 else occCount a st := by
  have hlen : s < (st.slots.map fun l => l.filter fun q => q ≠ p).length := by
    simpa using h
  have hset := countSlots_set a (st.slots.map fun l => l.filter fun q => q ≠ p)
    s (((st.slots.map fun l => l.filter fun q => q ≠ p).getD s []) ++ [p]) hlen
  rw [List.count_append, countSlots_map_filter] at hset
  unfold occCount
  rw [appendToSlot_tray, appendToSlot_slots]
  by_cases hap : a = p
  · subst hap
    rw [if_pos rfl] at hset ⊢
    rw [count_filter_self]
    have h1 : List.count a [a] = 1 := by simp
    omega
  · rw [if_neg hap] at hset ⊢
    rw [count_filter_other hap]
    have h0 : List.count a [p] = 0 := by simp [List.count_singleton, hap]
    omega

theorem occCount_movePieceToTray (a p : ℕ) (st : PState) :
    occCount a (movePieceToTray p st) =
      if a = p then 1 else occCount a st := by
  unfold movePieceToTray
  cases findSlotIdx p st.slots
  · exact occCount_appendToTray a p st
  · rw [occCount_appendToTray, occCount_set_filled]

theorem occCount_placePieceInSlot (a p s : ℕ) (st : PState)
    (h : s < st.slots.length) :
    occCount a (placePieceInSlot p s st) =
      if a = p then 1 else occCount a st := by
  unfold placePieceInSlot
  cases findSlotIdx p st.slots
  · rw [occCount_set_filled, occCount_appendToSlot a p s st h]
  · rw [occCount_set_filled, occCount_appendToSlot, occCount_set_filled]
    simpa using h

/-! ## Slot-count preservation -/

@[simp] theorem appendToTray_slots_length (p : ℕ) (st : PState) :
    (appendToTray p st).slots.length = st.slots.length := by
  simp

@[simp] theorem movePieceToTray_slots_length (p : ℕ) (st : PState) :
    (movePieceToTray p st).slots.length = st.slots.length := by
  rw [movePieceToTray_slots]; simp

@[simp] theorem placePieceInSlot_slots_length (p s : ℕ) (st : PState) :
    (placePieceInSlot p s st).slots.length = st.slots.length := by
  rw [placePieceInSlot_slots]; simp

/-! ## More helpers about slot lists -/

theorem getD_map_filter (p : ℕ) (ls : List (List ℕ)) (s : ℕ)
    (h : s < ls.length) :
    (ls.map fun l => l.filter fun q => q ≠ p).getD s [] =
      (ls.getD s []).filter fun q => q ≠ p := by
  rw [List.getD_eq_getElem?_getD, List.getElem?_map,
    List.getElem?_eq_getElem h, List.getD_eq_getElem?_getD,
    List.getElem?_eq_getElem h]
  rfl

theorem eq_singleton_of_head?_of_len_le {l : List ℕ} {q : ℕ}
    (h1 : l.head? = some q) (h2 : l.length ≤ 1) : l = [q] := by
  cases l with
  | nil => simp at h1
  | cons x t =>
    cases t with
    | nil => simpa using congrArg (fun o => o.getD 0) h1
    | cons y t2 => simp at h2

theorem head?_mem {l : List ℕ} {q : ℕ} (h : l.head? = some q) : q ∈ l := by
  cases l with
  | nil => simp at h
  | cons x t =>
    simp only [List.head?_cons, Option.some.injEq] at h
    exact h ▸ List.mem_cons_self x t

/-! ## Invariant preservation -/

theorem inv_set_filled (st : PState) (f : List Bool) :
    Inv { st with filled := f } ↔ Inv st := Iff.rfl

theorem inv_set_status (st : PState) (m : String) :
    Inv { st with status := m } ↔ Inv st := Iff.rfl

theorem movePieceToTray_inv {st : PState} {p : ℕ} (h : Inv st)
    (hp : p ∈ st.pieces) : Inv (movePieceToTray p st) := by
  obtain ⟨hnd, honce, htray, hslots⟩ := h
  refine ⟨by simpa using hnd, ?_, ?_, ?_⟩
  · intro a ha
    rw [occCount_movePieceToTray]
    split
    · rfl
    · exact honce a (by simpa using ha)
  · intro a ha
    rw [movePieceToTray_tray] at ha
    rw [movePieceToTray_pieces]
    rcases List.mem_append.mp ha with hin | hin
    · exact htray a (List.mem_filter.mp hin).1
    · exact List.mem_singleton.mp hin ▸ hp
  · intro l hl
    rw [movePieceToTray_slots] at hl
    rw [movePieceToTray_pieces]
    obtain ⟨l0, hl0, rfl⟩ := List.mem_map.mp hl
    obtain ⟨helems, hlen⟩ := hslots l0 hl0
    exact ⟨fun a ha => helems a (List.mem_filter.mp ha).1,
      le_trans (List.length_filter_le _ l0) hlen⟩

theorem placePieceInSlot_inv {st : PState} {p s : ℕ} (h : Inv st)
    (hp : p ∈ st.pieces) (hs : s < st.slots.length)
    (hclean : ∀ q ∈ st.slots.getD s [], q = p) :
    Inv (placePieceInSlot p s st) := by
  obtain ⟨hnd, honce, htray, hslots⟩ := h
  refine ⟨by simpa using hnd, ?_, ?_, ?_⟩
  · intro a ha
    rw [occCount_placePieceInSlot a p s st hs]
    split
    · rfl
    · exact honce a (by simpa using ha)
  · intro a ha
    rw [placePieceInSlot_tray] at ha
    rw [placePieceInSlot_pieces]
    exact htray a (List.mem_filter.mp ha).1
  · intro l hl
    rw [placePieceInSlot_slots] at hl
    rw [placePieceInSlot_pieces]
    have hslot_s : (st.slots.map fun l => l.filter fun q => q ≠ p).getD s [] =
        [] := by
      rw [getD_map_filter p st.slots s hs]
      refine List.filter_eq_nil_iff.mpr fun a ha => ?_
      simp [hclean a ha]
    rcases List.mem_or_eq_of_mem_set hl with hin | rfl
    · obtain ⟨l0, hl0, rfl⟩ := List.mem_map.mp hin
      obtain ⟨helems, hlen⟩ := hslots l0 hl0
      exact ⟨fun a ha => helems a (List.mem_filter.mp ha).1,
        le_trans (List.length_filter_le _ l0) hlen⟩
    · rw [hslot_s]
      exact ⟨fun a ha => List.mem_singleton.mp ha ▸ hp, by simp⟩

@[simp] theorem checkCompletion_pieces (st : PState) :
    (checkCompletion st).pieces = st.pieces := by
  unfold checkCompletion
  cases checkCompletionMsg st <;> rfl

@[simp] theorem checkCompletion_tray (st : PState) :
    (checkCompletion st).tray = st.tray := by
  unfold checkCompletion
  cases checkCompletionMsg st <;> rfl

@[simp] theorem checkCompletion_slots (st : PState) :
    (checkCompletion st).slots = st.slots := by
  unfold checkCompletion
  cases checkCompletionMsg st <;> rfl

@[simp] theorem checkCompletion_filled (st : PState) :
    (checkCompletion st).filled = st.filled := by
  unfold checkCompletion
  cases checkCompletionMsg st <;> rfl

theorem checkCompletion_inv {st : PState} (h : Inv st) :
    Inv (checkCompletion st) := by
  unfold checkCompletion
  cases checkCompletionMsg st
  · exact h
  · exact h

theorem setStatus_inv {st : PState} (m : String) (h : Inv st) :
    Inv (setStatus m st) := h

theorem handleDropOnSlot_inv {st : PState} (pid s : ℕ) (h : Inv st) :
    Inv (handleDropOnSlot pid s st) := by
  unfold handleDropOnSlot
  split
  case isFalse => exact h
  case isTrue hs =>
    split
    case isFalse => exact h
    case isTrue hpid =>
      have hslotmem := getD_mem (l := st.slots) ([] : List ℕ) hs
      have hlen1 : (st.slots.getD s []).length ≤ 1 :=
        (h.2.2.2 _ hslotmem).2
      refine checkCompletion_inv (setStatus_inv _ ?_)
      split
      next q hocc =>
        have hq_single : st.slots.getD s [] = [q] :=
          eq_singleton_of_head?_of_len_le hocc hlen1
        have hq_pieces : q ∈ st.pieces :=
          (h.2.2.2 _ hslotmem).1 q (head?_mem hocc)
        by_cases hqp : q ≠ pid
        · rw [if_pos hqp]
          have hinv1 := movePieceToTray_inv h hq_pieces
          refine placePieceInSlot_inv hinv1 (by simpa using hpid) ?_ ?_
          · simpa using hs
          · rw [movePieceToTray_slots, getD_map_filter q st.slots s hs,
              hq_single]
            intro q2 hq2
            simp at hq2
        · rw [if_neg hqp]
          have hq2 : q = pid := by omega
          subst hq2
          exact placePieceInSlot_inv h hpid hs
            (by rw [hq_single]; intro q2 hq2; simpa using hq2)
      next hocc =>
        have hnil : st.slots.getD s [] = [] := List.head?_eq_none_iff.mp hocc
        exact placePieceInSlot_inv h hpid hs
          (by rw [hnil]; intro q hq; simp at hq)

theorem handleDropOnTray_inv {st : PState} (pid : ℕ) (h : Inv st) :
    Inv (handleDropOnTray pid st) := by
  unfold handleDropOnTray
  split
  case isFalse => exact h
  case isTrue hpid =>
    exact checkCompletion_inv (setStatus_inv _ (movePieceToTray_inv h hpid))

/-! ## setStatus field lemmas -/

@[simp] theorem setStatus_pieces (m : String) (st : PState) :
    (setStatus m st).pieces = st.pieces := rfl

@[simp] theorem setStatus_tray (m : String) (st : PState) :
    (setStatus m st).tray = st.tray := rfl

@[simp] theorem setStatus_slots (m : String) (st : PState) :
    (setStatus m st).slots = st.slots := rfl

@[simp] theorem setStatus_filled (m : String) (st : PState) :
    (setStatus m st).filled = st.filled := rfl

@[simp] theorem setStatus_status (m : String) (st : PState) :
    (setStatus m st).status = m := rfl

/-! ## Fisher-Yates is a permutation -/

theorem count_set_list (l : List ℕ) (i x a : ℕ) (h : i < l.length) :
    (l.set i x).count a + (if l.getD i 0 = a then 1 else 0) =
      l.count a + (if x = a then 1 else 0) := by
  induction l generalizing i with
  | nil => simp at h
  | cons c t ih =>
    cases i with
    | zero =>
      simp only [List.set_cons_zero, List.getD_cons_zero, List.count_cons,
        beq_iff_eq]
      omega
    | succ j =>
      have hj : j < t.length := by simpa using h
      have := ih j hj
      simp only [List.set_cons_succ, List.getD_cons_succ, List.count_cons,
        beq_iff_eq]
      omega

theorem listSwap_perm (l : List ℕ) (i j : ℕ) : (listSwap l i j).Perm l := by
  unfold listSwap
  split
  next a b hi hj =>
    obtain ⟨hilen, hival⟩ := List.getElem?_eq_some_iff.mp hi
    obtain ⟨hjlen, hjval⟩ := List.getElem?_eq_some_iff.mp hj
    have hgi : l.getD i 0 = a := by
      rw [List.getD_eq_getElem?_getD, List.getElem?_eq_getElem hilen, hival]
      rfl
    have hgj : l.getD j 0 = b := by
      rw [List.getD_eq_getElem?_getD, List.getElem?_eq_getElem hjlen, hjval]
      rfl
    refine List.perm_iff_count.mpr fun c => ?_
    have h1 := count_set_list l i b c hilen
    have h2 := count_set_list (l.set i b) j a c (by simpa using hjlen)
    by_cases hij : i = j
    · subst hij
      have hab : a = b := by rw [← hival, ← hjval]
      subst hab
      rw [getD_set_self l i a 0 hilen] at h2
      rw [hgi] at h1
      omega
    · rw [getD_set_ne l i j b 0 hij, hgj] at h2
      rw [hgi] at h1
      omega
  next => exact List.Perm.refl l

theorem fyLoop_perm (rand : ℕ → ℕ) :
    ∀ (k : ℕ) (l : List ℕ), (fyLoop rand k l).Perm l := by
  intro k
  induction k with
  | zero => intro l; exact List.Perm.refl l
  | succ i ih =>
    intro l
    exact (ih _).trans (listSwap_perm l (i + 1) (rand (i + 1) % (i + 2)))

theorem fisherYates_perm (rand : ℕ → ℕ) (l : List ℕ) :
    (fisherYates rand l).Perm l :=
  fyLoop_perm rand (l.length - 1) l

/-! ## Re-appending the shuffled pieces to the tray -/

theorem foldl_appendToTray :
    ∀ (ps : List ℕ), ps.Nodup → ∀ st : PState,
      (ps.foldl (fun acc p => appendToTray p acc) st).tray =
          (st.tray.filter fun q => q ∉ ps) ++ ps ∧
      (ps.foldl (fun acc p => appendToTray p acc) st).slots =
          (st.slots.map fun l => l.filter fun q => q ∉ ps) ∧
      (ps.foldl (fun acc p => appendToTray p acc) st).pieces = st.pieces ∧
      (ps.foldl (fun acc p => appendToTray p acc) st).filled = st.filled ∧
      (ps.foldl (fun acc p => appendToTray p acc) st).status = st.status := by
  intro ps
  induction ps with
  | nil =>
    intro _ st
    simp
  | cons p rest ih =>
    intro hnd st
    obtain ⟨hpr, hrest⟩ := List.nodup_cons.mp hnd
    obtain ⟨htray, hslots, hpieces, hfilled, hstatus⟩ :=
      ih hrest (appendToTray p st)
    simp only [List.foldl_cons]
    have hpred : ∀ a : ℕ,
        (decide (a ∉ rest) && decide (a ≠ p)) = decide (a ∉ p :: rest) := by
      intro a
      by_cases h3 : a = p <;> by_cases h4 : a ∈ rest <;> simp [h3, h4]
    refine ⟨?_, ?_, ?_, ?_, ?_⟩
    · rw [htray, appendToTray_tray, List.filter_append, List.filter_filter]
      have h1 : List.filter (fun q => q ∉ rest) [p] = [p] := by simp [hpr]
      rw [h1, List.filter_congr fun a _ => hpred a]
      simp
    · rw [hslots, appendToTray_slots, List.map_map]
      refine List.map_congr_left fun l _ => ?_
      simp only [Function.comp_apply]
      rw [List.filter_filter]
      exact List.filter_congr fun a _ => hpred a
    · rw [hpieces, appendToTray_pieces]
    · rw [hfilled, appendToTray_filled]
    · rw [hstatus, appendToTray_status]

/-! ## Eviction loop preservation -/

theorem foldl_preserve {α : Type} (P : PState → Prop) (f : PState → α → PState)
    (hf : ∀ st a, P st → P (f st a)) :
    ∀ (l : List α) (st : PState), P st → P (l.foldl f st) := by
  intro l
  induction l with
  | nil => intro st h; simpa using h
  | cons a t ih =>
    intro st h
    rw [List.foldl_cons]
    exact ih _ (hf st a h)

theorem evictOne_inv {st : PState} (i : ℕ) (h : Inv st) :
    Inv (evictOne st i) := by
  unfold evictOne
  split
  next occ hocc =>
    have hi : i < st.slots.length := by
      by_contra hge
      rw [List.getD_eq_default _ _ (by omega)] at hocc
      simp at hocc
    have hmem := getD_mem (l := st.slots) ([] : List ℕ) hi
    have hoccp : occ ∈ st.pieces :=
      (h.2.2.2 _ hmem).1 occ (head?_mem hocc)
    exact (inv_set_filled _ _).mpr (movePieceToTray_inv h hoccp)
  next => exact (inv_set_filled _ _).mpr h

theorem evictOne_pieces (st : PState) (i : ℕ) :
    (evictOne st i).pieces = st.pieces := by
  unfold evictOne
  split <;> simp

theorem evictSlots_inv {st : PState} (h : Inv st) : Inv (evictSlots st) :=
  foldl_preserve Inv evictOne (fun st2 i h2 => evictOne_inv i h2) _ st h

theorem evictSlots_pieces (st : PState) :
    (evictSlots st).pieces = st.pieces :=
  foldl_preserve (fun x => x.pieces = st.pieces) evictOne
    (fun st2 i h2 => by
      show (evictOne st2 i).pieces = st.pieces
      rw [evictOne_pieces]
      exact h2) _ st rfl

/-! ## shufflePieces characterization -/

theorem shufflePieces_spec (rand : ℕ → ℕ) {st : PState} (h : Inv st) :
    (shufflePieces rand st).tray.Perm st.pieces ∧
    (∀ l ∈ (shufflePieces rand st).slots, l = []) ∧
    (shufflePieces rand st).pieces = st.pieces ∧
    (shufflePieces rand st).status = "Pieces shuffled. Start solving!" := by
  have hinv1 : Inv (evictSlots st) := evictSlots_inv h
  have hp1 : (evictSlots st).pieces = st.pieces := evictSlots_pieces st
  have hperm : (fisherYates rand (evictSlots st).pieces).Perm st.pieces := by
    rw [hp1]
    exact fisherYates_perm rand st.pieces
  have hnodup : (fisherYates rand (evictSlots st).pieces).Nodup :=
    hperm.symm.nodup (hp1 ▸ hinv1.1)
  obtain ⟨htray, hslots, hpieces, -, -⟩ :=
    foldl_appendToTray (fisherYates rand (evictSlots st).pieces) hnodup
      (evictSlots st)
  have hmem_shuffled : ∀ a ∈ (evictSlots st).pieces,
      a ∈ fisherYates rand (evictSlots st).pieces := fun a ha =>
    hperm.mem_iff.mpr (hp1 ▸ ha)
  unfold shufflePieces
  simp only [setStatus_tray, setStatus_slots, setStatus_pieces,
    setStatus_status]
  refine ⟨?_, ?_, ?_, by trivial⟩
  · rw [htray]
    have hfilter : ((evictSlots st).tray.filter
        fun q => q ∉ fisherYates rand (evictSlots st).pieces) = [] := by
      refine List.filter_eq_nil_iff.mpr fun a ha => ?_
      have : a ∈ fisherYates rand (evictSlots st).pieces :=
        hmem_shuffled a (hinv1.2.2.1 a ha)
      simp [this]
    rw [hfilter, List.nil_append]
    exact hperm
  · intro l hl
    rw [hslots] at hl
    obtain ⟨l0, hl0, rfl⟩ := List.mem_map.mp hl
    refine List.filter_eq_nil_iff.mpr fun a ha => ?_
    have : a ∈ fisherYates rand (evictSlots st).pieces :=
      hmem_shuffled a ((hinv1.2.2.2 l0 hl0).1 a ha)
    simp [this]
  · rw [hpieces, hp1]

theorem shufflePieces_inv (rand : ℕ → ℕ) {st : PState} (h : Inv st) :
    Inv (shufflePieces rand st) := by
  obtain ⟨hperm, hslots, hpieces, -⟩ := shufflePieces_spec rand h
  refine ⟨hpieces ▸ h.1, ?_, ?_, ?_⟩
  · intro a ha
    rw [hpieces] at ha
    unfold occCount
    have h1 : (shufflePieces rand st).tray.count a = 1 := by
      rw [hperm.count_eq a]
      exact List.count_eq_one_of_mem h.1 ha
    have h2 : countSlots a (shufflePieces rand st).slots = 0 :=
      (countSlots_eq_zero_iff a _).mpr fun l hl => by
        rw [hslots l hl]; simp
    omega
  · intro a ha
    rw [hpieces]
    exact hperm.mem_iff.mp ha
  · intro l hl
    rw [hslots l hl]
    exact ⟨fun p hp => absurd hp (List.not_mem_nil p), by simp⟩

/-! ## The invariant holds along every run -/

theorem applyOp_inv {st : PState} (op : Op) (h : Inv st) :
    Inv (applyOp st op) := by
  cases op with
  | dropOnSlot pid s => exact handleDropOnSlot_inv pid s h
  | dropOnTray pid => exact handleDropOnTray_inv pid h
  | shuffle rand => exact shufflePieces_inv rand h

theorem initState_inv (n : ℕ) : Inv (initState n) := by
  refine ⟨?_, ?_, ?_, ?_⟩
  · exact List.Nodup.map (fun a b => by omega) (List.nodup_range _)
  · intro p hp
    unfold occCount
    simp only [initState, countSlots_replicate_nil]
    have : (rebuildTray (n * n)).count p = 1 :=
      List.count_eq_one_of_mem
        (List.Nodup.map (fun a b => by omega) (List.nodup_range _)) hp
    simpa using this
  · intro p hp
    exact hp
  · intro l hl
    rw [List.eq_of_mem_replicate hl]
    exact ⟨fun p hp => absurd hp (List.not_mem_nil p), by simp⟩

theorem run_inv (ops : List Op) (n : ℕ) : Inv (run ops (initState n)) :=
  foldl_preserve Inv applyOp (fun st op h => applyOp_inv op h) ops
    (initState n) (initState_inv n)

end PState

/-! ## Grid sizing lemmas -/

/-- Characterization of roundedSide through squared inequalities, avoiding
any need to evaluate Nat.sqrt: roundedSide a = k exactly on the half-open
band where the boosted side lies in [k - 1/2, k + 1/2). -/
theorem roundedSide_eq_of_bounds (a k : ℕ) (hk : 1 ≤ k)
    (hlo : (2 * k - 1) * (2 * k - 1) * 14000000 ≤ 2116 * a)
    (hhi : 2116 * a < (2 * k + 1) * (2 * k + 1) * 14000000) :
    roundedSide a = k := by
  unfold roundedSide
  have h4 : 4 * (529 * a) * 14000000 = 2116 * a * 14000000 := by ring
  rw [h4]
  have hm : 2 * k - 1 + 1 = 2 * k := by omega
  have hslo : (2 * k - 1) * 14000000 ≤ Nat.sqrt (2116 * a * 14000000) := by
    rw [Nat.le_sqrt]
    calc (2 * k - 1) * 14000000 * ((2 * k - 1) * 14000000)
        = (2 * k - 1) * (2 * k - 1) * 14000000 * 14000000 := by ring
      _ ≤ 2116 * a * 14000000 := Nat.mul_le_mul_right _ hlo
  have hshi : Nat.sqrt (2116 * a * 14000000) < (2 * k + 1) * 14000000 := by
    rw [Nat.sqrt_lt]
    calc 2116 * a * 14000000
        < (2 * k + 1) * (2 * k + 1) * 14000000 * 14000000 :=
          (Nat.mul_lt_mul_right (by norm_num)).mpr hhi
      _ = (2 * k + 1) * 14000000 * ((2 * k + 1) * 14000000) := by ring
  omega

theorem roundedSide_area_10000 : roundedSide 10000 = 1 :=
  roundedSide_eq_of_bounds 10000 1 (by norm_num) (by norm_num) (by norm_num)

theorem roundedSide_area_1000000 : roundedSide 1000000 = 6 :=
  roundedSide_eq_of_bounds 1000000 6 (by norm_num) (by norm_num) (by norm_num)

theorem roundedSide_area_10000000 : roundedSide 10000000 = 19 :=
  roundedSide_eq_of_bounds 10000000 19 (by norm_num) (by norm_num)
    (by norm_num)

theorem clamp_range (v : ℕ) :
    MIN_BOARD_SIZE ≤ clamp v MIN_BOARD_SIZE MAX_BOARD_SIZE ∧
      clamp v MIN_BOARD_SIZE MAX_BOARD_SIZE ≤ MAX_BOARD_SIZE := by
  unfold clamp MIN_BOARD_SIZE MAX_BOARD_SIZE
  exact ⟨le_min (le_max_right _ _) (by norm_num), min_le_right _ _⟩

theorem boardSizeOfArea_range (a : ℕ) :
    MIN_BOARD_SIZE ≤ boardSizeOfArea a ∧
      boardSizeOfArea a ≤ MAX_BOARD_SIZE := by
  unfold boardSizeOfArea
  exact clamp_range _

theorem boardSizeOfArea_of_small {a : ℕ} (h : roundedSide a < 2) :
    boardSizeOfArea a = 2 := by
  unfold boardSizeOfArea clamp MIN_BOARD_SIZE MAX_BOARD_SIZE
  have : roundedSide a = 0 ∨ roundedSide a = 1 := by omega
  rcases this with h0 | h1
  · rw [h0, if_pos rfl]
    omega
  · rw [h1, if_neg (by omega)]
    omega

theorem boardSizeOfArea_of_large {a : ℕ} (h : 7 < roundedSide a) :
    boardSizeOfArea a = 7 := by
  unfold boardSizeOfArea clamp MIN_BOARD_SIZE MAX_BOARD_SIZE
  rw [if_neg (by omega)]
  rw [Nat.max_eq_left (by omega), Nat.min_eq_right (by omega)]

/-- Validation of the natural-number realisation of computeBoardSize
against the real-arithmetic reading of the JS source: roundedSide a is
the floor of sqrt(a / 35000) * 1.15 + 1/2, which is Math.round of the
boosted side under exact real arithmetic. -/
theorem roundedSide_models_real (a : ℕ) :
    roundedSide a = ⌊Real.sqrt ((a : ℝ) / 35000) * 1.15 + 1 / 2⌋₊ := by
  have hM : ((2116 * a * 14000000 : ℕ) : ℝ) =
      (a : ℝ) / 35000 * ((23 / 20) ^ 2 * 28000000 ^ 2) := by
    push_cast
    rw [div_mul_eq_mul_div, eq_div_iff (by norm_num)]
    ring_nf
  have hsqrtM : Real.sqrt ((2116 * a * 14000000 : ℕ) : ℝ) =
      Real.sqrt ((a : ℝ) / 35000) * (23 / 20 * 28000000) := by
    rw [hM, Real.sqrt_mul (by positivity), Real.sqrt_mul (by norm_num),
      Real.sqrt_sq (by norm_num), Real.sqrt_sq (by norm_num)]
  have hx : Real.sqrt ((a : ℝ) / 35000) * 1.15 + 1 / 2 =
      (Real.sqrt ((2116 * a * 14000000 : ℕ) : ℝ) +
        ((14000000 : ℕ) : ℝ)) / ((28000000 : ℕ) : ℝ) := by
    rw [hsqrtM]
    push_cast
    rw [eq_div_iff (by norm_num)]
    ring_nf
  unfold roundedSide
  rw [hx, Nat.floor_div_nat, Nat.floor_add_nat (Real.sqrt_nonneg _),
    Real.nat_floor_real_sqrt_eq_nat_sqrt]
  have h4 : 4 * (529 * a) * 14000000 = 2116 * a * 14000000 := by ring
  rw [h4]

/-! ## Row-major indexing of the two nested slicing loops -/

/-- A nested row/col loop pushing f row col in row-major order enumerates
f (k / C) (k % C) for k = 0 .. R*C - 1. -/
theorem flatMap_range_map {α : Type} (R C : ℕ) (f : ℕ → ℕ → α) :
    ((List.range R).flatMap fun r => (List.range C).map fun c => f r c) =
      (List.range (R * C)).map fun k => f (k / C) (k % C) := by
  induction R with
  | zero => simp
  | succ r ih =>
    rw [List.range_succ, List.flatMap_append, ih,
      show (r + 1) * C = r * C + C by ring, List.range_add, List.map_append]
    congr 1
    simp only [List.flatMap_cons, List.flatMap_nil, List.append_nil,
      List.map_map]
    refine List.map_congr_left fun x hx => ?_
    have hxC : x < C := List.mem_range.mp hx
    have hC : 0 < C := by omega
    simp only [Function.comp_apply]
    rw [show r * C + x = C * r + x by ring, Nat.mul_add_div hC,
      Nat.mul_add_mod, Nat.div_eq_of_lt hxC, Nat.mod_eq_of_lt hxC,
      Nat.add_zero]

/-- sliceScene in closed row-major form: the k-th texture (0-based) is the
rectangle of row k / n, column k % n. -/
theorem sliceScene_eq (n : ℕ) (p : ℚ) :
    sliceScene n p = (List.range (n * n)).map fun k =>
      ⟨((k % n : ℕ) : ℚ) * p, ((k / n : ℕ) : ℚ) * p, p, p⟩ := by
  unfold sliceScene
  exact flatMap_range_map n n fun r c =>
    (⟨(c : ℚ) * p, (r : ℚ) * p, p, p⟩ : SliceRect)

theorem sliceScene_length (n : ℕ) (p : ℚ) :
    (sliceScene n p).length = n * n := by
  rw [sliceScene_eq]
  simp

theorem rebuildBoard_length (n : ℕ) : (rebuildBoard n).length = n * n := by
  unfold rebuildBoard
  simp

theorem rebuildTray_length (m : ℕ) : (rebuildTray m).length = m := by
  unfold rebuildTray
  simp

theorem hydratePieces_length (m : ℕ) (ts : List SliceRect) :
    (hydratePieces m ts).length = m := by
  unfold hydratePieces
  simp

theorem rebuildBoard_getElem (n k : ℕ) (h : k < n * n) :
    (rebuildBoard n)[k]? = some (k + 1) := by
  unfold rebuildBoard
  rw [List.getElem?_map, List.getElem?_range h]
  rfl

theorem hydratePieces_getElem (m : ℕ) (ts : List SliceRect) (k : ℕ)
    (h : k < m) :
    (hydratePieces m ts)[k]? = some ⟨k + 1, k + 1, ts[k]?⟩ := by
  unfold hydratePieces
  rw [List.getElem?_map, List.getElem?_range h]
  rfl

theorem sliceScene_getElem (n : ℕ) (p : ℚ) (k : ℕ) (h : k < n * n) :
    (sliceScene n p)[k]? =
      some ⟨((k % n : ℕ) : ℚ) * p, ((k / n : ℕ) : ℚ) * p, p, p⟩ := by
  rw [sliceScene_eq, List.getElem?_map, List.getElem?_range h]
  rfl

namespace PState

/-! ## Completion evaluation: Bool checks versus their specifications -/

/-- Every slot holds a piece. -/
def FilledP (st : PState) : Prop :=
  ∀ i, i < st.slots.length → ∃ p, occupant st i = some p

/-- Every occupied slot holds the piece whose correctSlot is its id. -/
def CorrectP (st : PState) : Prop :=
  ∀ i, i < st.slots.length → ∀ p, occupant st i = some p →
    correctSlot p = i + 1

theorem getD_eq_getElem {α : Type} (l : List α) (i : ℕ) (d : α)
    (h : i < l.length) : l.getD i d = l[i] := by
  rw [List.getD_eq_getElem?_getD, List.getElem?_eq_getElem h]
  rfl

theorem allFilledB_iff (st : PState) : allFilledB st = true ↔ FilledP st := by
  unfold allFilledB FilledP occupant
  rw [List.all_eq_true]
  constructor
  · intro h i hi
    have := h _ (getD_mem (l := st.slots) ([] : List ℕ) hi)
    rcases hl : (st.slots.getD i []).head? with - | p
    · rw [List.head?_eq_none_iff] at hl
      rw [hl] at this
      simp at this
    · exact ⟨p, rfl⟩
  · intro h l hl
    obtain ⟨i, hi, rfl⟩ := List.mem_iff_getElem.mp hl
    obtain ⟨p, hp⟩ := h i hi
    rw [getD_eq_getElem st.slots i [] hi] at hp
    have : st.slots[i] ≠ [] := by
      intro hnil
      rw [hnil] at hp
      simp at hp
    simpa [List.isEmpty_iff]

theorem allCorrectB_iff (st : PState) :
    allCorrectB st = true ↔ FilledP st ∧ CorrectP st := by
  unfold allCorrectB FilledP CorrectP occupant
  rw [List.all_eq_true]
  constructor
  · intro h
    have key : ∀ i, i < st.slots.length →
        ∃ p, (st.slots.getD i []).head? = some p ∧ correctSlot p = i + 1 := by
      intro i hi
      have := h i (List.mem_range.mpr hi)
      rcases hl : (st.slots.getD i []).head? with - | p
      · rw [hl] at this
        simp at this
      · rw [hl] at this
        simp only [beq_iff_eq] at this
        exact ⟨p, rfl, this⟩
    constructor
    · intro i hi
      obtain ⟨p, hp, -⟩ := key i hi
      exact ⟨p, hp⟩
    · intro i hi p hp
      obtain ⟨p2, hp2, hc2⟩ := key i hi
      rw [hp] at hp2
      cases hp2
      exact hc2
  · rintro ⟨hF, hC⟩ i hi
    have hi2 := List.mem_range.mp hi
    obtain ⟨p, hp⟩ := hF i hi2
    rw [hp]
    simp only [beq_iff_eq]
    exact hC i hi2 p hp

theorem checkCompletionMsg_trichotomy (st : PState) :
    (checkCompletionMsg st = some completeMessage ↔
      FilledP st ∧ CorrectP st) ∧
    (checkCompletionMsg st = some closeMessage ↔
      FilledP st ∧ ¬ CorrectP st) ∧
    (checkCompletionMsg st = none ↔ ¬ FilledP st) := by
  have hF := allFilledB_iff st
  have hC := allCorrectB_iff st
  have hne : completeMessage ≠ closeMessage := by decide
  unfold checkCompletionMsg
  refine ⟨⟨?_, ?_⟩, ⟨?_, ?_⟩, ⟨?_, ?_⟩⟩
  · intro h
    by_cases hbc : (allCorrectB st && allFilledB st) = true
    · rw [Bool.and_eq_true] at hbc
      exact hC.mp hbc.1
    · rw [if_neg hbc] at h
      by_cases hbf : allFilledB st = true
      · rw [if_pos hbf] at h
        exact absurd (Option.some.inj h) hne.symm
      · rw [if_neg hbf] at h
        exact absurd h (by simp)
  · intro hx
    rw [if_pos (by rw [Bool.and_eq_true]; exact ⟨hC.mpr hx, hF.mpr hx.1⟩)]
  · intro h
    by_cases hbc : (allCorrectB st && allFilledB st) = true
    · rw [if_pos hbc] at h
      exact absurd (Option.some.inj h) hne
    · rw [if_neg hbc] at h
      by_cases hbf : allFilledB st = true
      · refine ⟨hF.mp hbf, fun hCp => ?_⟩
        refine hbc (by rw [Bool.and_eq_true]; exact ⟨hC.mpr ⟨hF.mp hbf, hCp⟩, hbf⟩)
      · rw [if_neg hbf] at h
        exact absurd h (by simp)
  · rintro ⟨hFp, hnC⟩
    have hbc : (allCorrectB st && allFilledB st) ≠ true := fun hx => by
      rw [Bool.and_eq_true] at hx
      exact hnC (hC.mp hx.1).2
    rw [if_neg hbc, if_pos (hF.mpr hFp)]
  · intro h hFp
    by_cases hbc : (allCorrectB st && allFilledB st) = true
    · rw [if_pos hbc] at h
      exact absurd h (by simp)
    · rw [if_neg hbc, if_pos (hF.mpr hFp)] at h
      exact absurd h (by simp)
  · intro hnF
    have hbf : allFilledB st ≠ true := fun hx => hnF (hF.mp hx)
    have hbc : (allCorrectB st && allFilledB st) ≠ true := fun hx => by
      rw [Bool.and_eq_true] at hx
      exact hbf hx.2
    rw [if_neg hbc, if_neg hbf]

/-! ## Unique location helpers -/

theorem loc_unique {st : PState} (h : Inv st) {p i : ℕ}
    (hi : i < st.slots.length) (hmem : p ∈ st.slots.getD i []) :
    findSlotIdx p st.slots = some i ∧ st.tray.count p = 0 ∧
      ∀ j, j < st.slots.length → j ≠ i → p ∉ st.slots.getD j [] := by
  have hp : p ∈ st.pieces := (h.2.2.2 _ (getD_mem [] hi)).1 p hmem
  have honce := h.2.1 p hp
  unfold occCount at honce
  have hcs : countSlots p st.slots ≤ 1 := by
    have h1 : 1 ≤ (st.slots.getD i []).count p := List.count_pos_iff.mpr hmem
    have h2 := count_getD_le_countSlots p st.slots i hi
    omega
  obtain ⟨hfind, hothers⟩ := findSlotIdx_unique p st.slots i hi hmem hcs
  refine ⟨hfind, ?_, hothers⟩
  have h1 : 1 ≤ (st.slots.getD i []).count p := List.count_pos_iff.mpr hmem
  have h2 := count_getD_le_countSlots p st.slots i hi
  omega

theorem tray_mem_no_slot {st : PState} (h : Inv st) {p : ℕ}
    (hp : p ∈ st.tray) :
    findSlotIdx p st.slots = none ∧ countSlots p st.slots = 0 := by
  have hpp : p ∈ st.pieces := h.2.2.1 p hp
  have honce := h.2.1 p hpp
  unfold occCount at honce
  have h1 : 1 ≤ st.tray.count p := List.count_pos_iff.mpr hp
  have hz : countSlots p st.slots = 0 := by omega
  exact ⟨(findSlotIdx_eq_none_iff p st.slots).mpr
    ((countSlots_eq_zero_iff p _).mp hz), hz⟩

theorem filter_ne_of_not_mem {p : ℕ} {l : List ℕ} (h : p ∉ l) :
    (l.filter fun q => q ≠ p) = l :=
  List.filter_eq_self.mpr fun a ha => by
    simp only [decide_eq_true_eq, ne_eq]
    rintro rfl
    exact h ha

theorem getD_set_false_self (l : List Bool) (i : ℕ) :
    (l.set i false).getD i false = false := by
  by_cases h : i < l.length
  · exact getD_set_self l i false false h
  · rw [List.set_eq_of_length_le (by omega),
      List.getD_eq_default _ _ (by omega)]

@[simp] theorem occCount_checkCompletion (a : ℕ) (st : PState) :
    occCount a (checkCompletion st) = occCount a st := by
  unfold checkCompletion
  cases checkCompletionMsg st <;> rfl

@[simp] theorem occCount_setStatus (a : ℕ) (m : String) (st : PState) :
    occCount a (setStatus m st) = occCount a st := rfl

/-! ## Displacement: dropping on an occupied slot evicts the occupant -/

theorem dropOnSlot_displaces {st : PState} {A B c : ℕ} (h : Inv st)
    (hc : c < st.slots.length) (hA : st.slots.getD c [] = [A])
    (hB : B ∈ st.tray) (hAB : A ≠ B) :
    A ∈ (handleDropOnSlot B c st).tray ∧
    (handleDropOnSlot B c st).slots.getD c [] = [B] ∧
    (∀ p : ℕ, occCount p (handleDropOnSlot B c st) = occCount p st) := by
  have hBp : B ∈ st.pieces := h.2.2.1 B hB
  have hAmem : A ∈ st.slots.getD c [] := by
    rw [hA]
    exact List.mem_cons_self A []
  have hAp : A ∈ st.pieces := (h.2.2.2 _ (getD_mem [] hc)).1 A hAmem
  have hocc : (st.slots.getD c []).head? = some A := by rw [hA]; rfl
  have hoccA : occCount A st = 1 := h.2.1 A hAp
  have hoccB : occCount B st = 1 := h.2.1 B hBp
  have heq : handleDropOnSlot B c st =
      checkCompletion (setStatus "Piece placed on the board."
        (placePieceInSlot B c (movePieceToTray A st))) := by
    unfold handleDropOnSlot
    rw [if_pos hc, if_pos hBp]
    split
    next q2 hocc2 =>
      rw [hocc] at hocc2
      have hq2 : A = q2 := Option.some.inj hocc2
      subst hq2
      rw [if_pos hAB]
    next hocc2 =>
      rw [hocc] at hocc2
      simp at hocc2
  rw [heq]
  refine ⟨?_, ?_, ?_⟩
  · simp only [checkCompletion_tray, setStatus_tray, placePieceInSlot_tray,
      movePieceToTray_tray]
    rw [List.filter_append]
    refine List.mem_append.mpr (Or.inr ?_)
    simp [hAB]
  · simp only [checkCompletion_slots, setStatus_slots]
    rw [placePieceInSlot_slots]
    have hlen2 : c < ((movePieceToTray A st).slots.map
        fun l => l.filter fun q => q ≠ B).length := by
      simp [hc]
    rw [getD_set_self _ _ _ _ hlen2]
    have hempty : ((movePieceToTray A st).slots.map
        fun l => l.filter fun q => q ≠ B).getD c [] = [] := by
      rw [getD_map_filter B _ c (by simpa using hc), movePieceToTray_slots,
        getD_map_filter A st.slots c hc, hA]
      simp
    rw [hempty]
    rfl
  · intro p
    rw [occCount_checkCompletion, occCount_setStatus,
      occCount_placePieceInSlot p B c _ (by simpa using hc),
      occCount_movePieceToTray]
    by_cases hpB : p = B
    · subst hpB
      rw [if_pos rfl, hoccB]
    · rw [if_neg hpB]
      by_cases hpA : p = A
      · subst hpA
        rw [if_pos rfl, hoccA]
      · rw [if_neg hpA]

/-! ## Frame effect: moving a placed piece to a different slot -/

theorem dropOnSlot_moves_piece {st : PState} {p x y : ℕ} (h : Inv st)
    (hx : x < st.slots.length) (hy : y < st.slots.length) (hxy : x ≠ y)
    (hpx : st.slots.getD x [] = [p]) :
    (handleDropOnSlot p y st).slots.getD x [] = [] ∧
    (handleDropOnSlot p y st).filled.getD x false = false ∧
    (handleDropOnSlot p y st).slots.getD y [] = [p] ∧
    ∀ z, z ≠ x → z ≠ y →
      (handleDropOnSlot p y st).slots.getD z [] = st.slots.getD z [] := by
  have hpmem : p ∈ st.slots.getD x [] := by
    rw [hpx]
    exact List.mem_cons_self p []
  have hpp : p ∈ st.pieces := (h.2.2.2 _ (getD_mem [] hx)).1 p hpmem
  obtain ⟨hfindp, -, hothersp⟩ := loc_unique h hx hpmem
  rcases hoccY : (st.slots.getD y []).head? with - | q
  · -- target slot empty: no eviction
    have hynil : st.slots.getD y [] = [] := List.head?_eq_none_iff.mp hoccY
    have heq : handleDropOnSlot p y st =
        checkCompletion (setStatus "Piece placed on the board."
          (placePieceInSlot p y st)) := by
      unfold handleDropOnSlot
      rw [if_pos hy, if_pos hpp]
      split
      next q2 hocc2 =>
        rw [hoccY] at hocc2
        simp at hocc2
      next hocc2 => rfl
    rw [heq]
    simp only [checkCompletion_slots, setStatus_slots,
      checkCompletion_filled, setStatus_filled]
    rw [placePieceInSlot_slots, placePieceInSlot_filled_some y hfindp]
    have hmaplen : y < (st.slots.map fun l => l.filter fun q => q ≠ p).length := by
      simpa using hy
    refine ⟨?_, ?_, ?_, ?_⟩
    · rw [getD_set_ne _ _ _ _ _ (fun hzz => hxy hzz.symm),
        getD_map_filter p st.slots x hx, hpx]
      simp
    · rw [getD_set_ne _ _ _ _ (false : Bool) (fun hzz => hxy hzz.symm)]
      exact getD_set_false_self st.filled x
    · rw [getD_set_self _ _ _ _ hmaplen,
        getD_map_filter p st.slots y hy, hynil]
      rfl
    · intro z hzx hzy
      rw [getD_set_ne _ _ _ _ _ (fun hzz => hzy hzz.symm)]
      by_cases hzlen : z < st.slots.length
      · rw [getD_map_filter p st.slots z hzlen]
        exact filter_ne_of_not_mem (hothersp z hzlen hzx)
      · rw [List.getD_eq_default _ _ (by simpa using (by omega : st.slots.length ≤ z)),
          List.getD_eq_default _ _ (by omega)]
  · -- target slot occupied by q: eviction first
    have hqmem : q ∈ st.slots.getD y [] := head?_mem hoccY
    have hq_single : st.slots.getD y [] = [q] :=
      eq_singleton_of_head?_of_len_le hoccY (h.2.2.2 _ (getD_mem [] hy)).2
    have hqp : q ≠ p := fun hq => hothersp y hy (fun hyx => hxy hyx.symm)
      (hq ▸ hqmem)
    obtain ⟨hfindq, -, hothersq⟩ := loc_unique h hy hqmem
    have heq : handleDropOnSlot p y st =
        checkCompletion (setStatus "Piece placed on the board."
          (placePieceInSlot p y (movePieceToTray q st))) := by
      unfold handleDropOnSlot
      rw [if_pos hy, if_pos hpp]
      split
      next q2 hocc2 =>
        rw [hoccY] at hocc2
        have hq2 : q = q2 := Option.some.inj hocc2
        subst hq2
        rw [if_pos hqp]
      next hocc2 =>
        rw [hoccY] at hocc2
        simp at hocc2
    rw [heq]
    -- the state after eviction
    have hslots1 : ∀ z, z < st.slots.length →
        (movePieceToTray q st).slots.getD z [] =
          (st.slots.getD z []).filter fun q2 => q2 ≠ q := by
      intro z hz
      rw [movePieceToTray_slots, getD_map_filter q st.slots z hz]
    have hslots1x : (movePieceToTray q st).slots.getD x [] = [p] := by
      rw [hslots1 x hx, hpx]
      simp [Ne.symm hqp]
    have hslots1y : (movePieceToTray q st).slots.getD y [] = [] := by
      rw [hslots1 y hy, hq_single]
      simp
    have hinv1 : Inv (movePieceToTray q st) :=
      movePieceToTray_inv h ((h.2.2.2 _ (getD_mem [] hy)).1 q hqmem)
    have hx1 : x < (movePieceToTray q st).slots.length := by simpa using hx
    have hpmem1 : p ∈ (movePieceToTray q st).slots.getD x [] := by
      rw [hslots1x]
      exact List.mem_cons_self p []
    obtain ⟨hfindp1, -, hothersp1⟩ := loc_unique hinv1 hx1 hpmem1
    simp only [checkCompletion_slots, setStatus_slots,
      checkCompletion_filled, setStatus_filled]
    rw [placePieceInSlot_slots, placePieceInSlot_filled_some y hfindp1]
    have hmaplen : y < ((movePieceToTray q st).slots.map
        fun l => l.filter fun q2 => q2 ≠ p).length := by
      simpa using hy
    refine ⟨?_, ?_, ?_, ?_⟩
    · rw [getD_set_ne _ _ _ _ _ (fun hzz => hxy hzz.symm),
        getD_map_filter p _ x hx1, hslots1x]
      simp
    · rw [getD_set_ne _ _ _ _ (false : Bool) (fun hzz => hxy hzz.symm)]
      exact getD_set_false_self _ x
    · rw [getD_set_self _ _ _ _ hmaplen, getD_map_filter p _ y
        (by simpa using hy), hslots1y]
      rfl
    · intro z hzx hzy
      rw [getD_set_ne _ _ _ _ _ (fun hzz => hzy hzz.symm)]
      by_cases hzlen : z < st.slots.length
      · rw [getD_map_filter p _ z (by simpa using hzlen), hslots1 z hzlen,
          filter_ne_of_not_mem (hothersq z hzlen (fun hzy2 => hzy hzy2)),
          filter_ne_of_not_mem (hothersp z hzlen hzx)]
      · rw [List.getD_eq_default _ _ (by simpa using (by omega : st.slots.length ≤ z)),
          List.getD_eq_default _ _ (by omega)]

/-! ## Return-to-tray on a piece already in the tray -/

theorem movePieceToTray_held {st : PState} {p : ℕ} (h : Inv st)
    (hp : p ∈ st.tray) :
    (movePieceToTray p st).slots = st.slots ∧
    (movePieceToTray p st).filled = st.filled ∧
    (movePieceToTray p st).status = st.status ∧
    (movePieceToTray p st).pieces = st.pieces ∧
    (movePieceToTray p st).tray = (st.tray.filter fun q => q ≠ p) ++ [p] ∧
    p ∈ (movePieceToTray p st).tray := by
  obtain ⟨hfind, hz⟩ := tray_mem_no_slot h hp
  have hnoslot := (countSlots_eq_zero_iff p st.slots).mp hz
  refine ⟨?_, movePieceToTray_filled_none hfind, movePieceToTray_status p st,
    movePieceToTray_pieces p st, movePieceToTray_tray p st, ?_⟩
  · rw [movePieceToTray_slots]
    calc st.slots.map (fun l => l.filter fun q => q ≠ p)
        = st.slots.map id :=
          List.map_congr_left fun l hl => filter_ne_of_not_mem (hnoslot l hl)
      _ = st.slots := List.map_id _
  · rw [movePieceToTray_tray]
    exact List.mem_append.mpr (Or.inr (List.mem_singleton.mpr rfl))

/-! ## The JS return value of the drop handlers

A JS function returns undefined both when it executes a bare return
statement (the not-found early exit) and when control falls off the end
(the success path); the handlers have no other return.  JsUndefined is
that single value. -/

inductive JsUndefined where
  | undefined
deriving DecidableEq

/-- handleDropOnSlot together with its JS return value: the not-found
early return and the fall-through end of the function both yield
undefined. -/
def handleDropOnSlotResult (pid s : ℕ) (st : PState) :
    PState × JsUndefined :=
  if pid ∈ st.pieces then (handleDropOnSlot pid s st, JsUndefined.undefined)
  else (st, JsUndefined.undefined)

/-- handleDropOnTray together with its JS return value. -/
def handleDropOnTrayResult (pid : ℕ) (st : PState) :
    PState × JsUndefined :=
  if pid ∈ st.pieces then (handleDropOnTray pid st, JsUndefined.undefined)
  else (st, JsUndefined.undefined)

theorem handleDrop_noop {st : PState} {pid : ℕ} (s : ℕ)
    (h : pid ∉ st.pieces) :
    handleDropOnSlot pid s st = st ∧ handleDropOnTray pid st = st := by
  constructor
  · unfold handleDropOnSlot
    by_cases hs : s < st.slots.length
    · rw [if_pos hs, if_neg h]
    · rw [if_neg hs]
  · unfold handleDropOnTray
    rw [if_neg h]

/-! ## The pieces array is never modified by any operation -/

theorem shufflePieces_pieces (rand : ℕ → ℕ) (st : PState) :
    (shufflePieces rand st).pieces = st.pieces := by
  unfold shufflePieces
  simp only [setStatus_pieces]
  have hfold := foldl_preserve (fun x => x.pieces = (evictSlots st).pieces)
    (fun acc p2 => appendToTray p2 acc)
    (fun st2 a h2 => by
      show (appendToTray a st2).pieces = _
      rw [appendToTray_pieces]
      exact h2)
    (fisherYates rand (evictSlots st).pieces) (evictSlots st) rfl
  rw [hfold, evictSlots_pieces]

theorem handleDropOnSlot_pieces (pid s : ℕ) (st : PState) :
    (handleDropOnSlot pid s st).pieces = st.pieces := by
  unfold handleDropOnSlot
  repeat' split
  all_goals simp

theorem handleDropOnTray_pieces (pid : ℕ) (st : PState) :
    (handleDropOnTray pid st).pieces = st.pieces := by
  unfold handleDropOnTray
  split <;> simp

theorem run_pieces (ops : List Op) (st : PState) :
    (run ops st).pieces = st.pieces := by
  refine foldl_preserve (fun x => x.pieces = st.pieces) applyOp
    (fun st2 op h2 => ?_) ops st rfl
  cases op with
  | dropOnSlot pid s =>
    show (handleDropOnSlot pid s st2).pieces = st.pieces
    rw [handleDropOnSlot_pieces]
    exact h2
  | dropOnTray pid =>
    show (handleDropOnTray pid st2).pieces = st.pieces
    rw [handleDropOnTray_pieces]
    exact h2
  | shuffle rand =>
    show (shufflePieces rand st2).pieces = st.pieces
    rw [shufflePieces_pieces]
    exact h2

end PState

open PState

/-- Concrete evaluation of the grid size on a 1000 x 1000 image: the
boosted side is sqrt(1000000 / 35000) * 1.15, about 6.15, which rounds to
6 and is inside the clamp band. -/
theorem computeBoardSize_example : computeBoardSize 1000 1000 = 6 := by
  show boardSizeOfArea (1000 * 1000) = 6
  rw [show (1000 * 1000 : ℕ) = 1000000 by norm_num]
  unfold boardSizeOfArea clamp MIN_BOARD_SIZE MAX_BOARD_SIZE
  rw [roundedSide_area_1000000, if_neg (by norm_num)]
  omega

/-- State with piece 1 placed on slot 1 of a 2 x 2 puzzle and the other
three pieces in the tray; used as the concrete input of witnesses. -/
def dispState : PState := handleDropOnSlot 1 0 (initState 2)

/-! ## Claim theorems -/

/-- C1: for every sequence of drop-on-slot, drop-on-tray and shuffle
operations starting from the initial state, every piece of the model
occurs in exactly one container position, counting over the holding tray
and every slot together, and no slot holds more than one piece; the
pieces array itself stays the full set 1 .. n*n built by rebuildTray. -/
theorem claim_C1 (n : ℕ) (ops : List Op) :
    (∀ p ∈ (run ops (initState n)).pieces,
      occCount p (run ops (initState n)) = 1) ∧
    (∀ l ∈ (run ops (initState n)).slots, l.length ≤ 1) ∧
    (run ops (initState n)).pieces = rebuildTray (n * n) := by
  have h := run_inv ops n
  exact ⟨h.2.1, fun l hl => (h.2.2.2 l hl).2, run_pieces ops (initState n)⟩

/-- C2: when piece A occupies cell c and piece B is in the holding tray,
dropping B on c evicts A to the tray, B becomes the sole occupant of c,
and the number of occurrences of every piece is unchanged, so nothing is
lost or duplicated. -/
theorem claim_C2 (st : PState) (A B c : ℕ) (h : Inv st)
    (hc : c < st.slots.length) (hA : st.slots.getD c [] = [A])
    (hB : B ∈ st.tray) (hAB : A ≠ B) :
    A ∈ (handleDropOnSlot B c st).tray ∧
    (handleDropOnSlot B c st).slots.getD c [] = [B] ∧
    ∀ p : ℕ, occCount p (handleDropOnSlot B c st) = occCount p st :=
  dropOnSlot_displaces h hc hA hB hAB

theorem claim_C2_witness :
    (Inv dispState ∧ 0 < dispState.slots.length ∧
      dispState.slots.getD 0 [] = [1] ∧ 2 ∈ dispState.tray ∧
      (1 : ℕ) ≠ 2) ∧
    (1 ∈ (handleDropOnSlot 2 0 dispState).tray ∧
      (handleDropOnSlot 2 0 dispState).slots.getD 0 [] = [2] ∧
      ∀ p : ℕ, occCount p (handleDropOnSlot 2 0 dispState) =
        occCount p dispState) :=
  ⟨⟨by decide, by decide, by decide, by decide, by decide⟩,
    claim_C2 dispState 1 2 0 (by decide) (by decide) (by decide)
      (by decide) (by decide)⟩

/-- C3: the completion evaluator classifies every state three ways
through the status message it writes: the completion message exactly when
all slots are filled and each occupant is correct, the so-close message
exactly when all slots are filled but some occupant is wrong, and no
message exactly when some slot is empty; the three outcomes are pairwise
distinct, so callers can tell them apart. -/
theorem claim_C3 (st : PState) :
    (checkCompletionMsg st = some completeMessage ↔
      FilledP st ∧ CorrectP st) ∧
    (checkCompletionMsg st = some closeMessage ↔
      FilledP st ∧ ¬ CorrectP st) ∧
    (checkCompletionMsg st = none ↔ ¬ FilledP st) ∧
    some completeMessage ≠ some closeMessage ∧
    (some completeMessage : Option String) ≠ none ∧
    (some closeMessage : Option String) ≠ none := by
  obtain ⟨h1, h2, h3⟩ := checkCompletionMsg_trichotomy st
  exact ⟨h1, h2, h3, by decide, by decide, by decide⟩

/-- C4: for every grid side n, slicing yields exactly n*n textures in
row-major order and board construction yields exactly n*n slot ids, and
for every k in [1, n*n] the k-th hydrated piece carries
correctSlot = k, the k-th slot carries id = k, and the k-th texture is
the rectangle of row (k-1) / n, column (k-1) % n. -/
theorem claim_C4 (n : ℕ) (p : ℚ) :
    (sliceScene n p).length = n * n ∧
    (rebuildBoard n).length = n * n ∧
    ∀ k, 1 ≤ k → k ≤ n * n →
      ((hydratePieces (n * n) (sliceScene n p))[k - 1]?).map
        PieceInfo.correctSlot = some k ∧
      (rebuildBoard n)[k - 1]? = some k ∧
      (sliceScene n p)[k - 1]? =
        some ⟨(((k - 1) % n : ℕ) : ℚ) * p, (((k - 1) / n : ℕ) : ℚ) * p,
          p, p⟩ := by
  refine ⟨sliceScene_length n p, rebuildBoard_length n, ?_⟩
  intro k h1 h2
  have hk : k - 1 < n * n := by omega
  have hk1 : k - 1 + 1 = k := by omega
  refine ⟨?_, ?_, sliceScene_getElem n p (k - 1) hk⟩
  · rw [hydratePieces_getElem (n * n) _ (k - 1) hk]
    simp [hk1]
  · rw [rebuildBoard_getElem n (k - 1) hk, hk1]

theorem claim_C4_witness :
    ((1 : ℕ) ≤ 3 ∧ (3 : ℕ) ≤ 2 * 2) ∧
    (((hydratePieces (2 * 2) (sliceScene 2 150))[3 - 1]?).map
        PieceInfo.correctSlot = some 3 ∧
      (rebuildBoard 2)[3 - 1]? = some 3 ∧
      (sliceScene 2 150)[3 - 1]? =
        some ⟨(((3 - 1) % 2 : ℕ) : ℚ) * 150, (((3 - 1) / 2 : ℕ) : ℚ) * 150,
          150, 150⟩) :=
  ⟨⟨by decide, by decide⟩, (claim_C4 2 150).2.2 3 (by decide) (by decide)⟩

/-- C5: the grid size is a pure function of the image dimensions: it is a
Lean function of (w, h) alone, it factors through the pixel area w * h,
and its value always lies in the closed range [2, 7]. -/
theorem claim_C5 (w h : ℕ) (hw : 0 < w) (hh : 0 < h) :
    computeBoardSize w h = boardSizeOfArea (w * h) ∧
    2 ≤ computeBoardSize w h ∧ computeBoardSize w h ≤ 7 :=
  ⟨rfl, (boardSizeOfArea_range (w * h)).1, (boardSizeOfArea_range (w * h)).2⟩

theorem claim_C5_witness :
    0 < 1000 ∧ 0 < 1000 ∧
    (computeBoardSize 1000 1000 = boardSizeOfArea (1000 * 1000) ∧
      2 ≤ computeBoardSize 1000 1000 ∧ computeBoardSize 1000 1000 ≤ 7) :=
  ⟨by decide, by decide, claim_C5 1000 1000 (by decide) (by decide)⟩

/-- C6: after shufflePieces on any well-formed state, every slot is
empty (shuffle itself places nothing in a cell), the tray holds a
permutation of the full pieces array, so the multiset of held piece ids
equals the multiset of all piece ids with only the order changed, for
every outcome of the random draws. -/
theorem claim_C6 (st : PState) (rand : ℕ → ℕ) (h : Inv st) :
    (∀ l ∈ (shufflePieces rand st).slots, l = []) ∧
    (shufflePieces rand st).tray.Perm st.pieces ∧
    (shufflePieces rand st).pieces = st.pieces := by
  obtain ⟨hperm, hslots, hpieces, -⟩ := shufflePieces_spec rand h
  exact ⟨hslots, hperm, hpieces⟩

theorem claim_C6_witness :
    Inv (initState 2) ∧
    ((∀ l ∈ (shufflePieces (fun i => i) (initState 2)).slots, l = []) ∧
      (shufflePieces (fun i => i) (initState 2)).tray.Perm
        (initState 2).pieces ∧
      (shufflePieces (fun i => i) (initState 2)).pieces =
        (initState 2).pieces) :=
  ⟨by decide, claim_C6 (initState 2) (fun i => i) (by decide)⟩

/-- C7 counterexample: the drop handlers return the same undefined value
whether the piece id was found or not, so the caller is not informed of
the failure by a return signal; with the stale id 99 the call is a pure
no-op, while the same call with the valid id 1 changes the state yet
returns the identical value. -/
theorem claim_C7_counterexample :
    99 ∉ (initState 2).pieces ∧ 1 ∈ (initState 2).pieces ∧
    (handleDropOnSlotResult 99 0 (initState 2)).1 = initState 2 ∧
    (handleDropOnSlotResult 1 0 (initState 2)).1 ≠ initState 2 ∧
    (handleDropOnSlotResult 99 0 (initState 2)).2 =
      (handleDropOnSlotResult 1 0 (initState 2)).2 := by
  decide

/-- C7 (amended): an operation invoked with a piece id absent from the
model is a complete no-op: the state, including tray order, slots,
filled markers and status text, is unchanged; but the caller receives no
distinguishing return signal: both handlers return undefined on the
failure path exactly as on the success path, so failure is observable
only through the absence of the side effects. -/
theorem claim_C7 (st : PState) (pid s : ℕ) (h : pid ∉ st.pieces) :
    handleDropOnSlot pid s st = st ∧
    handleDropOnTray pid st = st ∧
    handleDropOnSlotResult pid s st = (st, JsUndefined.undefined) ∧
    handleDropOnTrayResult pid st = (st, JsUndefined.undefined) := by
  obtain ⟨h1, h2⟩ := handleDrop_noop s h
  refine ⟨h1, h2, ?_, ?_⟩
  · unfold handleDropOnSlotResult
    rw [if_neg h]
  · unfold handleDropOnTrayResult
    rw [if_neg h]

theorem claim_C7_witness :
    99 ∉ (initState 2).pieces ∧
    (handleDropOnSlot 99 0 (initState 2) = initState 2 ∧
      handleDropOnTray 99 (initState 2) = initState 2 ∧
      handleDropOnSlotResult 99 0 (initState 2) =
        (initState 2, JsUndefined.undefined) ∧
      handleDropOnTrayResult 99 (initState 2) =
        (initState 2, JsUndefined.undefined)) :=
  ⟨by decide, claim_C7 (initState 2) 99 0 (by decide)⟩

/-- C8 counterexample: moving a piece that is already in the holding tray
back to the tray is not a no-op: tray.appendChild moves the piece div to
the end of the tray, so with pieces [1, 2, 3, 4] in the tray, returning
piece 1 reorders the tray to [2, 3, 4, 1], an observable state change. -/
theorem claim_C8_counterexample :
    1 ∈ (initState 2).tray ∧
    movePieceToTray 1 (initState 2) ≠ initState 2 ∧
    handleDropOnTray 1 (initState 2) ≠ initState 2 := by
  decide

/-- C8 (amended): returning to the tray a piece already in the tray
leaves every slot, every filled marker, the status text and the pieces
array unchanged and keeps the piece in the tray; the only change is the
position of the piece within the tray ordering: it is moved to the end,
so the call is idempotent on the whole state exactly when the piece is
already the last tray child. -/
theorem claim_C8 (st : PState) (p : ℕ) (h : Inv st) (hp : p ∈ st.tray) :
    (movePieceToTray p st).slots = st.slots ∧
    (movePieceToTray p st).filled = st.filled ∧
    (movePieceToTray p st).status = st.status ∧
    (movePieceToTray p st).pieces = st.pieces ∧
    (movePieceToTray p st).tray = (st.tray.filter fun q => q ≠ p) ++ [p] ∧
    p ∈ (movePieceToTray p st).tray :=
  movePieceToTray_held h hp

theorem claim_C8_witness :
    (Inv (initState 2) ∧ 1 ∈ (initState 2).tray) ∧
    ((movePieceToTray 1 (initState 2)).slots = (initState 2).slots ∧
      (movePieceToTray 1 (initState 2)).filled = (initState 2).filled ∧
      (movePieceToTray 1 (initState 2)).status = (initState 2).status ∧
      (movePieceToTray 1 (initState 2)).pieces = (initState 2).pieces ∧
      (movePieceToTray 1 (initState 2)).tray =
        ((initState 2).tray.filter fun q => q ≠ 1) ++ [1] ∧
      1 ∈ (movePieceToTray 1 (initState 2)).tray) :=
  ⟨⟨by decide, by decide⟩, claim_C8 (initState 2) 1 (by decide) (by decide)⟩

/-- C9: the grid size clamps at both boundaries: every area whose boosted
side rounds below 2 yields 2, every area whose boosted side rounds above
7 yields 7, and in particular a 100 x 100 image (area 10000, boosted side
about 0.615) rounds to 1 and clamps up to 2. -/
theorem claim_C9 :
    (∀ a : ℕ, roundedSide a < 2 → boardSizeOfArea a = 2) ∧
    (∀ a : ℕ, 7 < roundedSide a → boardSizeOfArea a = 7) ∧
    roundedSide (100 * 100) = 1 ∧
    computeBoardSize 100 100 = 2 := by
  refine ⟨fun a ha => boardSizeOfArea_of_small ha,
    fun a ha => boardSizeOfArea_of_large ha, ?_, ?_⟩
  · rw [show (100 * 100 : ℕ) = 10000 by norm_num]
    exact roundedSide_area_10000
  · show boardSizeOfArea (100 * 100) = 2
    rw [show (100 * 100 : ℕ) = 10000 by norm_num]
    exact boardSizeOfArea_of_small (by rw [roundedSide_area_10000]; norm_num)

theorem claim_C9_witness :
    (roundedSide 10000 < 2 ∧ boardSizeOfArea 10000 = 2) ∧
    (7 < roundedSide 10000000 ∧ boardSizeOfArea 10000000 = 7) := by
  have h := claim_C9
  have h1 : roundedSide 10000 < 2 := by
    rw [roundedSide_area_10000]
    norm_num
  have h2 : 7 < roundedSide 10000000 := by
    rw [roundedSide_area_10000000]
    norm_num
  exact ⟨⟨h1, h.1 10000 h1⟩, ⟨h2, h.2.1 10000000 h2⟩⟩

/-- C10: moving the piece that occupies cell x onto a different cell y
leaves cell x empty with its filled marker cleared, makes the piece the
sole occupant of cell y, and leaves the occupancy of every other cell
unchanged. -/
theorem claim_C10 (st : PState) (p x y : ℕ) (h : Inv st)
    (hx : x < st.slots.length) (hy : y < st.slots.length) (hxy : x ≠ y)
    (hpx : st.slots.getD x [] = [p]) :
    (handleDropOnSlot p y st).slots.getD x [] = [] ∧
    (handleDropOnSlot p y st).filled.getD x false = false ∧
    (handleDropOnSlot p y st).slots.getD y [] = [p] ∧
    ∀ z, z ≠ x → z ≠ y →
      (handleDropOnSlot p y st).slots.getD z [] = st.slots.getD z [] :=
  dropOnSlot_moves_piece h hx hy hxy hpx

theorem claim_C10_witness :
    (Inv dispState ∧ 0 < dispState.slots.length ∧
      1 < dispState.slots.length ∧ (0 : ℕ) ≠ 1 ∧
      dispState.slots.getD 0 [] = [1]) ∧
    ((handleDropOnSlot 1 1 dispState).slots.getD 0 [] = [] ∧
      (handleDropOnSlot 1 1 dispState).filled.getD 0 false = false ∧
      (handleDropOnSlot 1 1 dispState).slots.getD 1 [] = [1] ∧
      ∀ z, z ≠ 0 → z ≠ 1 →
        (handleDropOnSlot 1 1 dispState).slots.getD z [] =
          dispState.slots.getD z []) :=
  ⟨⟨by decide, by decide, by decide, by decide, by decide⟩,
    claim_C10 dispState 1 0 1 (by decide) (by decide) (by decide)
      (by decide) (by decide)⟩

end Puzzle
